import Mathlib

/-!
Verification development for the IDB livestock-project pipeline
(`process_local_pdfs.py`).  The Python source is shallowly embedded over
`List Char`: strings become character lists, the extraction strategies of
`parse_pdf_to_dataframe` become recursive functions, and the keyword
matcher of `LivestockProjectFilter` becomes an executable word-boundary
search.  Unicode NFKD normalization — a library call in the source — is
embedded as a finite decomposition table covering the characters this
development exercises.
-/

namespace IDB

/-- Whitespace as recognized by Python's `str.strip` and the regex class
used in `re.sub` on `str` patterns (ASCII controls plus the Unicode
space separators). -/
def isPyWs (c : Char) : Bool :=
  c = ' ' || c = '\t' || c = '\n' || c = '\r' || c = '\u000B' || c = '\u000C' ||
  c = '\u001C' || c = '\u001D' || c = '\u001E' || c = '\u001F' ||
  c = '\u0085' || c = '\u00A0' || c = '\u1680' ||
  c = '\u2000' || c = '\u2001' || c = '\u2002' || c = '\u2003' ||
  c = '\u2004' || c = '\u2005' || c = '\u2006' || c = '\u2007' ||
  c = '\u2008' || c = '\u2009' || c = '\u200A' ||
  c = '\u2028' || c = '\u2029' || c = '\u202F' || c = '\u205F' || c = '\u3000'

/-- Lowercasing as applied by Python's `str.lower` on the ASCII and
Latin-1 letters (the only letters appearing in the source's label
patterns and keywords). -/
def toLowerPy (c : Char) : Char :=
  if 'A' ≤ c && c ≤ 'Z' then Char.ofNat (c.toNat + 32)
  else if 0xC0 ≤ c.toNat && c.toNat ≤ 0xDE && c.toNat ≠ 0xD7 then Char.ofNat (c.toNat + 32)
  else c

/-- Lowercase every character, modelling `line.lower()`. -/
def lowerL (l : List Char) : List Char := l.map toLowerPy

/-- Boolean test that `p` leads `l`, i.e. `l` begins with `p`. -/
def leadsWith : List Char → List Char → Bool
  | [], _ => true
  | _ :: _, [] => false
  | a :: as, b :: bs => a == b && leadsWith as bs

/-- Boolean substring test, modelling Python's `pat in s`. -/
def containsSub (pat l : List Char) : Bool :=
  (List.range (l.length + 1)).any fun i => leadsWith pat (l.drop i)

/-- The substring occurrence predicate: `pat` appears contiguously in `l`. -/
def occursIn (pat l : List Char) : Prop := ∃ s t, l = s ++ pat ++ t

/-- Strip leading whitespace, first half of Python's `str.strip`. -/
def dropLeadingWs (l : List Char) : List Char := l.dropWhile isPyWs

/-- Strip trailing whitespace, second half of Python's `str.strip`. -/
def dropTrailingWs : List Char → List Char
  | [] => []
  | c :: rest =>
    if (dropTrailingWs rest).isEmpty && isPyWs c then [] else c :: dropTrailingWs rest

/-- Python's `str.strip`: remove leading and trailing whitespace. -/
def pyStrip (l : List Char) : List Char := dropTrailingWs (dropLeadingWs l)

/-- Split a text on the newline character, modelling `s.split('\n')`. -/
def splitNlAux (cur : List Char) : List Char → List (List Char)
  | [] => [cur.reverse]
  | c :: rest =>
    if c = '\n' then cur.reverse :: splitNlAux [] rest
    else splitNlAux (c :: cur) rest

/-- The line preprocessing of `parse_pdf_to_dataframe`:
`[line.strip() for line in pdf_text.split(chr(10)) if line.strip()]`. -/
def splitLines (text : List Char) : List (List Char) :=
  ((splitNlAux [] text).map pyStrip).filter (fun l => !l.isEmpty)

/-- A project record as built by the parser: the `Project Name` key is
always present, the `Project Description` key only when a description
label was processed. -/
structure Project where
  name : List Char
  description : Option (List Char)
deriving DecidableEq, Repr

/-- The name-label patterns of Strategy 1 (source line 140). -/
def namePatterns : List (List Char) :=
  ["project:".toList, "project name:".toList, "title:".toList,
   "nombre del proyecto:".toList]

/-- The description-label patterns of Strategy 1 (source line 146).  The
final pattern reproduces the mojibake literal of the source file
(`descripci` followed by U+00C3 U+00B3 and `n:`). -/
def descPatterns : List (List Char) :=
  ["description:".toList, "project description:".toList, "summary:".toList,
   ("descripci".toList ++ ['\u00C3', '\u00B3'] ++ "n:".toList)]

/-- The stop-word patterns of the description look-ahead (source line 151). -/
def stopPatterns : List (List Char) :=
  ["project:".toList, "title:".toList, "budget:".toList, "cost:".toList,
   "date:".toList]

/-- Does the line contain a name-label pattern (case-insensitively,
anywhere in the line)? -/
def isNameLine (l : List Char) : Bool :=
  namePatterns.any fun p => containsSub p (lowerL l)

/-- Does the line contain a description-label pattern? -/
def isDescLine (l : List Char) : Bool :=
  descPatterns.any fun p => containsSub p (lowerL l)

/-- Does the line contain a stop-word pattern? -/
def isStopLine (l : List Char) : Bool :=
  stopPatterns.any fun p => containsSub p (lowerL l)

/-- Modelling `line.split(':', 1)[1].strip() if ':' in line else
line.strip()`. -/
def afterColon (l : List Char) : List Char :=
  if l.contains ':' then pyStrip ((l.dropWhile (fun c => c ≠ ':')).tail)
  else pyStrip l

/-- The description look-ahead loop of Strategy 1: keep appending the
stripped following lines until one contains a stop word. -/
def lookaheadDesc (desc : List Char) : List (List Char) → List Char
  | [] => desc
  | l :: rest =>
    if isStopLine l then desc
    else lookaheadDesc
      (if (pyStrip l).isEmpty then desc else desc ++ ' ' :: pyStrip l) rest

/-- The Strategy 1 scan over the lines, carrying the current project and
the accumulated records; at the end the current project, when present,
is appended (source lines 137-159). -/
def strat1Loop : List (List Char) → Option Project → List Project → List Project
  | [], cur, acc => acc ++ cur.toList
  | line :: rest, cur, acc =>
    if isNameLine line then
      strat1Loop rest (some ⟨afterColon line, none⟩) (acc ++ cur.toList)
    else if isDescLine line then
      match cur with
      | none => strat1Loop rest none acc
      | some p =>
        strat1Loop rest (some ⟨p.name, some (lookaheadDesc (afterColon line) rest)⟩) acc
    else
      strat1Loop rest cur acc

/-- Strategy 1 — labeled fields. -/
def strat1 (lines : List (List Char)) : List Project :=
  strat1Loop lines none []

/-- The table-header test of Strategy 2 (source line 168). -/
def isHeaderLine (l : List Char) : Bool :=
  containsSub "project".toList (lowerL l) &&
    (containsSub "name".toList (lowerL l) || containsSub "title".toList (lowerL l))

/-- Find the first header line and return the lines after it. -/
def findAfterHeader : List (List Char) → Option (List (List Char))
  | [] => none
  | l :: rest => if isHeaderLine l then some rest else findAfterHeader rest

/-- Split a line into its whitespace-separated words, modelling
`line.split()`. -/
def wordsAux (cur : List Char) : List Char → List (List Char)
  | [] => if cur.isEmpty then [] else [cur.reverse]
  | c :: rest =>
    if isPyWs c then
      (if cur.isEmpty then wordsAux [] rest else cur.reverse :: wordsAux [] rest)
    else wordsAux (c :: cur) rest

/-- Modelling `line.split()`. -/
def splitWsAll (l : List Char) : List (List Char) := wordsAux [] l

/-- Modelling `line.split(None, 1)`: the first word and the remainder
after the following whitespace run. -/
def splitWs1 (l : List Char) : List Char × List Char :=
  let l1 := l.dropWhile isPyWs
  let tok := l1.takeWhile (fun c => !isPyWs c)
  let rest := (l1.dropWhile (fun c => !isPyWs c)).dropWhile isPyWs
  (tok, rest)

/-- The table-row scan of Strategy 2 over the lines after the header. -/
def strat2Body : List (List Char) → List Project
  | [] => []
  | line :: rest =>
    (if !line.isEmpty && 2 ≤ (splitWsAll line).length then
      [⟨(splitWs1 line).1, some (splitWs1 line).2⟩]
    else []) ++ strat2Body rest

/-- Strategy 2 — tabular heuristic (source lines 161-181). -/
def strat2 (lines : List (List Char)) : List Project :=
  match findAfterHeader lines with
  | none => []
  | some rest => strat2Body rest

/-- Space-join a list of lines, modelling `' '.join(chunk)`. -/
def joinSp (chunks : List (List Char)) : List Char :=
  List.intercalate [' '] chunks

/-- The chunk-grouping loop of Strategy 3 (source lines 188-201):
substantial lines (length strictly above 50) accumulate; a short line
closes the chunk, which is kept only when its joined length is strictly
above 100. -/
def chunksAux : List (List Char) → List (List Char) → List (List Char)
  | [], cur => if !cur.isEmpty && 100 < (joinSp cur).length then [joinSp cur] else []
  | l :: rest, cur =>
    if 50 < l.length then chunksAux rest (cur ++ [l])
    else if !cur.isEmpty then
      (if 100 < (joinSp cur).length then [joinSp cur] else []) ++ chunksAux rest []
    else chunksAux rest []

/-- Build the record for the chunk at 0-based position `i`: the name is
`Section {i+1}: ` followed by the first 100 characters of the stripped
first sentence. -/
def mkSection (i : Nat) (chunk : List Char) : Project :=
  ⟨"Section ".toList ++ (Nat.repr (i + 1)).toList ++ ": ".toList ++
     (pyStrip (chunk.takeWhile (fun c => c ≠ '.'))).take 100,
   some chunk⟩

/-- Strategy 3 — content chunking (source lines 183-212): at most the
first 10 kept chunks become records. -/
def strat3 (lines : List (List Char)) : List Project :=
  ((chunksAux lines []).take 10).enum.map fun p => mkSection p.1 p.2

/-- The strategy chain of `parse_pdf_to_dataframe` on an already-split
line sequence, with the terminal fallback record (source lines 214-219). -/
def parseLines (lines : List (List Char)) (pdf_text fname : List Char) :
    List Project :=
  let p1 := strat1 lines
  let p2 := if p1.isEmpty then strat2 lines else p1
  let p3 := if p2.isEmpty then strat3 lines else p2
  if p3.isEmpty then
    [⟨"Full Document Analysis - ".toList ++ fname, some (pdf_text.take 2000)⟩]
  else p3

/-- The extractor `parse_pdf_to_dataframe` (source lines 127-221). -/
def parse_pdf_to_dataframe (pdf_text fname : List Char) : List Project :=
  parseLines (splitLines pdf_text) pdf_text fname

/-- Finite fragment of the Unicode NFKD decomposition table
(`unicodedata.normalize` in the source), covering the characters this
development exercises: the special spaces named by the source, the
Latin-1 accented letters, and the superscript digit appearing in the
source's mojibake literal.  Characters outside the table decompose to
themselves. -/
def nfkdTable : List (Char × List Char) :=
  [('\u00A0', [' ']), ('\u2007', [' ']), ('\u2009', [' ']), ('\u200A', [' ']),
   ('\u00E1', ['a', '\u0301']), ('\u00E9', ['e', '\u0301']), ('\u00ED', ['i', '\u0301']),
   ('\u00F3', ['o', '\u0301']), ('\u00FA', ['u', '\u0301']),
   ('\u00C1', ['A', '\u0301']), ('\u00C9', ['E', '\u0301']), ('\u00CD', ['I', '\u0301']),
   ('\u00D3', ['O', '\u0301']), ('\u00DA', ['U', '\u0301']),
   ('\u00F1', ['n', '\u0303']), ('\u00D1', ['N', '\u0303']),
   ('\u00E3', ['a', '\u0303']), ('\u00C3', ['A', '\u0303']),
   ('\u00FC', ['u', '\u0308']), ('\u00DC', ['U', '\u0308']),
   ('\u00E7', ['c', '\u0327']), ('\u00C7', ['C', '\u0327']),
   ('\u00B3', ['3'])]

/-- Decompose one character per the NFKD fragment. -/
def decompNFKD (c : Char) : List Char :=
  match nfkdTable.find? (fun p => p.1 == c) with
  | some p => p.2
  | none => [c]

/-- The NFKD pass of `_normalize_text` (source line 54). -/
def nfkd (l : List Char) : List Char := l.flatMap decompNFKD

/-- The four space characters replaced explicitly by `_normalize_text`
(source lines 57-60). -/
def isSpecialSpace (c : Char) : Bool :=
  c = '\u00A0' || c = '\u2007' || c = '\u2009' || c = '\u200A'

/-- The explicit space replacements of `_normalize_text`. -/
def replaceSp (l : List Char) : List Char :=
  l.map fun c => if isSpecialSpace c then ' ' else c

/-- The whitespace-collapsing pass `re.sub(r'\s+', ' ', text)` (source
line 63); the flag records whether the previous character was part of a
whitespace run already replaced. -/
def collapseAux : Bool → List Char → List Char
  | _, [] => []
  | prevWs, c :: rest =>
    if isPyWs c then
      if prevWs then collapseAux true rest
      else ' ' :: collapseAux true rest
    else c :: collapseAux false rest

/-- Collapse every whitespace run to a single space. -/
def collapseWS (l : List Char) : List Char := collapseAux false l

/-- The normalization pipeline `_normalize_text` (source lines 45-68):
NFKD, special-space replacement, whitespace collapsing, strip. -/
def normalize (l : List Char) : List Char :=
  pyStrip (collapseWS (replaceSp (nfkd l)))

/-- Word characters per the regex word-boundary class: alphanumerics and
the underscore. -/
def isWordChar (c : Char) : Bool := c.isAlphanum || c == '_'

/-- Is the character at position `i` (when present) a word character? -/
def wordAtPos (l : List Char) (i : Nat) : Bool :=
  match l.drop i with
  | [] => false
  | c :: _ => isWordChar c

/-- Does a word boundary fall at position `i` (between positions `i-1`
and `i`, with out-of-range positions counting as non-word)? -/
def boundaryAt (l : List Char) (i : Nat) : Bool :=
  match i with
  | 0 => wordAtPos l 0
  | j + 1 => wordAtPos l j != wordAtPos l (j + 1)

/-- Does the case-insensitive keyword occurrence start at position `i`
with word boundaries on both sides?  This embeds the compiled pattern
`\b{escaped keyword}\b` with `re.IGNORECASE` (source line 41). -/
def kwMatchAt (kw text : List Char) (i : Nat) : Bool :=
  lowerL ((text.drop i).take kw.length) == lowerL kw &&
    boundaryAt text i && boundaryAt text (i + kw.length)

/-- Does the pattern for `kw` match anywhere in `text`
(`pattern.search`)? -/
def searchWord (kw text : List Char) : Bool :=
  (List.range (text.length + 1)).any fun i => kwMatchAt kw text i

/-- Order-preserving deduplication, modelling `list(dict.fromkeys(...))`
(source line 84); `seen` holds the keys already emitted. -/
def dedupFirstAux (seen : List (List Char)) : List (List Char) → List (List Char)
  | [] => []
  | x :: xs =>
    if x ∈ seen then dedupFirstAux seen xs
    else x :: dedupFirstAux (x :: seen) xs

/-- Remove duplicates while preserving first-occurrence order. -/
def dedupFirst (l : List (List Char)) : List (List Char) := dedupFirstAux [] l

/-- The matcher `find_keywords_in_text` (source lines 70-84): empty text
short-circuits; otherwise the text is normalized, each keyword pattern
is searched in order, and the hits are deduplicated preserving order. -/
def find_keywords_in_text (keywords : List (List Char)) (text : List Char) :
    List (List Char) :=
  if text.isEmpty then []
  else
    dedupFirst (keywords.filter fun kw => searchWord kw (normalize text))

/-- No two adjacent characters are both whitespace. -/
def noAdjWs : List Char → Prop
  | [] => True
  | [_] => True
  | a :: b :: rest => ¬(isPyWs a = true ∧ isPyWs b = true) ∧ noAdjWs (b :: rest)

/-- The first character, when present, is not whitespace. -/
def noLeadWs : List Char → Prop
  | [] => True
  | c :: _ => isPyWs c = false

/-- The last character, when present, is not whitespace. -/
def noTrailWs : List Char → Prop
  | [] => True
  | [c] => isPyWs c = false
  | _ :: rest => noTrailWs rest

end IDB

namespace IDB

theorem leadsWith_iff (p l : List Char) : leadsWith p l = true ↔ ∃ t, l = p ++ t := by
  induction p generalizing l with
  | nil => simp [leadsWith]
  | cons a as ih =>
    cases l with
    | nil =>
      simp only [leadsWith, List.nil_eq, Bool.false_eq_true, false_iff]
      rintro ⟨t, ht⟩
      exact absurd ht (by simp)
    | cons b bs =>
      simp only [leadsWith, Bool.and_eq_true, beq_iff_eq, ih]
      constructor
      · rintro ⟨rfl, t, rfl⟩
        exact ⟨t, rfl⟩
      · rintro ⟨t, ht⟩
        injection ht with h1 h2
        exact ⟨h1.symm, t, h2⟩

theorem containsSub_iff (p l : List Char) : containsSub p l = true ↔ occursIn p l := by
  simp only [containsSub, List.any_eq_true, List.mem_range, leadsWith_iff, occursIn]
  constructor
  · rintro ⟨i, _, t, ht⟩
    refine ⟨l.take i, t, ?_⟩
    conv_lhs => rw [← List.take_append_drop i l]
    rw [ht, List.append_assoc]
  · rintro ⟨s, t, rfl⟩
    refine ⟨s.length, ?_, t, ?_⟩
    · simp only [List.append_assoc, List.length_append]
      omega
    · rw [List.append_assoc, List.drop_left]

theorem dedupFirstAux_sublist (l seen : List (List Char)) : List.Sublist (dedupFirstAux seen l) l := by
  induction l generalizing seen with
  | nil => simp [dedupFirstAux]
  | cons x xs ih =>
    simp only [dedupFirstAux]
    split
    · exact List.Sublist.cons x (ih seen)
    · exact List.Sublist.cons₂ x (ih (x :: seen))

theorem dedupFirstAux_not_mem (l seen : List (List Char)) (x : List Char)
    (hx : x ∈ dedupFirstAux seen l) : x ∉ seen := by
  induction l generalizing seen with
  | nil => simp [dedupFirstAux] at hx
  | cons y ys ih =>
    simp only [dedupFirstAux] at hx
    split at hx
    · exact ih seen hx
    · rcases List.mem_cons.mp hx with rfl | h
      · assumption
      · intro hmem
        exact ih (y :: seen) h (List.mem_cons_of_mem y hmem)

theorem dedupFirstAux_nodup (l seen : List (List Char)) : (dedupFirstAux seen l).Nodup := by
  induction l generalizing seen with
  | nil => simp [dedupFirstAux]
  | cons y ys ih =>
    simp only [dedupFirstAux]
    split
    · exact ih seen
    · refine List.nodup_cons.mpr ⟨?_, ih (y :: seen)⟩
      intro hy
      exact dedupFirstAux_not_mem ys (y :: seen) y hy (List.mem_cons_self y seen)

theorem find_keywords_nodup (kws : List (List Char)) (text : List Char) :
    (find_keywords_in_text kws text).Nodup := by
  unfold find_keywords_in_text
  split
  · exact List.nodup_nil
  · exact dedupFirstAux_nodup _ _

theorem find_keywords_sublist (kws : List (List Char)) (text : List Char) :
    List.Sublist (find_keywords_in_text kws text) kws := by
  unfold find_keywords_in_text
  split
  · exact List.nil_sublist kws
  · exact (dedupFirstAux_sublist _ _).trans (List.filter_sublist kws)

theorem lookaheadDesc_eq (rest : List (List Char)) (desc : List Char)
    (h : ∀ l ∈ rest, pyStrip l = l ∧ l ≠ []) :
    lookaheadDesc desc rest =
      desc ++ (rest.takeWhile fun l => !isStopLine l).flatMap (fun l => ' ' :: l) := by
  induction rest generalizing desc with
  | nil => simp [lookaheadDesc]
  | cons l rest ih =>
    obtain ⟨hs, hne⟩ := h l (List.mem_cons_self l rest)
    by_cases hstop : isStopLine l
    · simp [lookaheadDesc, hstop]
    · have hre := ih (desc ++ ' ' :: l) fun x hx => h x (List.mem_cons_of_mem l hx)
      have hempty : l.isEmpty = false := by
        cases l with
        | nil => exact absurd rfl hne
        | cons c cs => rfl
      simp only [lookaheadDesc, hstop, if_false, hs, hempty, Bool.false_eq_true, hre,
        List.takeWhile_cons, Bool.not_false, if_true, List.flatMap_cons, List.append_assoc]

theorem strat1Loop_skipNonName (pre : List (List Char))
    (h : ∀ l ∈ pre, isNameLine l = false) (tail : List (List Char))
    (acc : List Project) :
    strat1Loop (pre ++ tail) none acc = strat1Loop tail none acc := by
  induction pre with
  | nil => rfl
  | cons p ps ih =>
    have hp := h p (List.mem_cons_self p ps)
    have hps : ∀ l ∈ ps, isNameLine l = false := fun l hl => h l (List.mem_cons_of_mem p hl)
    have hstep : strat1Loop ((p :: ps) ++ tail) none acc = strat1Loop (ps ++ tail) none acc := by
      rw [List.cons_append]
      by_cases hd : isDescLine p <;>
        simp only [strat1Loop, hp, Bool.false_eq_true, if_false, hd, if_true]
    rw [hstep, ih hps]

theorem decompNFKD_table_stable :
    ∀ p ∈ nfkdTable, ∀ c ∈ p.2, decompNFKD c = [c] := by decide

theorem decompNFKD_output_stable (a c : Char) (hc : c ∈ decompNFKD a) :
    decompNFKD c = [c] := by
  unfold decompNFKD at hc
  split at hc
  next p hfind =>
    exact decompNFKD_table_stable p (List.mem_of_find?_eq_some hfind) c hc
  next hfind =>
    have hca : c = a := by simpa using hc
    subst hca
    unfold decompNFKD
    rw [hfind]

theorem nfkd_fix (l : List Char) (h : ∀ c ∈ l, decompNFKD c = [c]) : nfkd l = l := by
  induction l with
  | nil => rfl
  | cons c cs ih =>
    have hcs := ih fun x hx => h x (List.mem_cons_of_mem c hx)
    simp only [nfkd] at hcs ⊢
    simp [List.flatMap_cons, h c (List.mem_cons_self c cs), hcs]

theorem mem_replaceSp (l : List Char) (c : Char) (hc : c ∈ replaceSp l) :
    c = ' ' ∨ c ∈ l := by
  obtain ⟨a, ha, hca⟩ := List.mem_map.mp hc
  by_cases hsp : isSpecialSpace a = true
  · simp only [hsp, if_true] at hca
    exact Or.inl hca.symm
  · simp only [Bool.not_eq_true] at hsp
    simp only [hsp, Bool.false_eq_true, if_false] at hca
    exact Or.inr (hca ▸ ha)

theorem replaceSp_no_special (l : List Char) (c : Char) (hc : c ∈ replaceSp l) :
    isSpecialSpace c = false := by
  obtain ⟨a, ha, hca⟩ := List.mem_map.mp hc
  by_cases hsp : isSpecialSpace a = true
  · simp only [hsp, if_true] at hca
    rw [← hca]
    decide
  · simp only [Bool.not_eq_true] at hsp
    simp only [hsp, Bool.false_eq_true, if_false] at hca
    rwa [← hca]

theorem replaceSp_fix (l : List Char) (h : ∀ c ∈ l, isSpecialSpace c = false) :
    replaceSp l = l := by
  induction l with
  | nil => rfl
  | cons c cs ih =>
    have hcs := ih fun x hx => h x (List.mem_cons_of_mem c hx)
    simp only [replaceSp, List.map_cons] at hcs ⊢
    rw [h c (List.mem_cons_self c cs)]
    simp only [Bool.false_eq_true, if_false, List.cons.injEq, true_and]
    exact hcs

theorem mem_collapseAux (l : List Char) :
    ∀ (b : Bool) (c : Char), c ∈ collapseAux b l → c = ' ' ∨ c ∈ l := by
  induction l with
  | nil =>
    intro b c hc
    simp [collapseAux] at hc
  | cons a l ih =>
    intro b c hc
    unfold collapseAux at hc
    split at hc
    · split at hc
      · rcases ih true c hc with h | h
        · exact Or.inl h
        · exact Or.inr (List.mem_cons_of_mem a h)
      · rcases List.mem_cons.mp hc with rfl | hc2
        · exact Or.inl rfl
        · rcases ih true c hc2 with h | h
          · exact Or.inl h
          · exact Or.inr (List.mem_cons_of_mem a h)
    · rcases List.mem_cons.mp hc with rfl | hc2
      · exact Or.inr (List.mem_cons_self _ _)
      · rcases ih false c hc2 with h | h
        · exact Or.inl h
        · exact Or.inr (List.mem_cons_of_mem a h)

theorem collapseAux_ws_space (l : List Char) :
    ∀ (b : Bool) (c : Char), c ∈ collapseAux b l → isPyWs c = true → c = ' ' := by
  induction l with
  | nil =>
    intro b c hc
    simp [collapseAux] at hc
  | cons a l ih =>
    intro b c hc hws
    unfold collapseAux at hc
    split at hc
    next ha =>
      split at hc
      · exact ih true c hc hws
      · rcases List.mem_cons.mp hc with rfl | hc2
        · rfl
        · exact ih true c hc2 hws
    next ha =>
      rcases List.mem_cons.mp hc with rfl | hc2
      · exact absurd hws ha
      · exact ih false c hc2 hws

theorem collapseAux_true_head (l : List Char) :
    ∀ c, (collapseAux true l).head? = some c → isPyWs c = false := by
  induction l with
  | nil =>
    intro c hc
    simp [collapseAux] at hc
  | cons a l ih =>
    intro c hc
    unfold collapseAux at hc
    split at hc
    · simp only [if_pos rfl] at hc
      exact ih c hc
    next ha =>
      simp only [List.head?_cons, Option.some.injEq] at hc
      subst hc
      simpa using ha

theorem noAdjWs_cons (a : Char) (l : List Char)
    (hhead : ∀ x, l.head? = some x → ¬(isPyWs a = true ∧ isPyWs x = true))
    (hl : noAdjWs l) : noAdjWs (a :: l) := by
  cases l with
  | nil => trivial
  | cons b bs => exact ⟨hhead b rfl, hl⟩

theorem collapseAux_noAdj (l : List Char) : ∀ b, noAdjWs (collapseAux b l) := by
  induction l with
  | nil =>
    intro b
    exact trivial
  | cons a l ih =>
    intro b
    unfold collapseAux
    split
    · split
      · exact ih true
      · refine noAdjWs_cons ' ' _ ?_ (ih true)
        intro x hx
        have hxws := collapseAux_true_head l x hx
        simp [hxws]
    next ha =>
      refine noAdjWs_cons a _ ?_ (ih false)
      intro x hx h
      exact ha h.1

theorem collapseAux_indep (l : List Char)
    (hhd : ∀ x, l.head? = some x → isPyWs x = false) :
    collapseAux true l = collapseAux false l := by
  cases l with
  | nil => rfl
  | cons b bs =>
    have hb := hhd b rfl
    simp [collapseAux, hb]

theorem collapseAux_false_eq_self (l : List Char)
    (hsp : ∀ c ∈ l, isPyWs c = true → c = ' ')
    (hadj : noAdjWs l) : collapseAux false l = l := by
  induction l with
  | nil => rfl
  | cons a l ih =>
    have htail : noAdjWs l := by
      cases l with
      | nil => trivial
      | cons b bs => exact hadj.2
    have hrec := ih (fun c hc hw => hsp c (List.mem_cons_of_mem a hc) hw) htail
    by_cases ha : isPyWs a = true
    · have ha2 : a = ' ' := hsp a (List.mem_cons_self a l) ha
      have hhd : ∀ x, l.head? = some x → isPyWs x = false := by
        intro x hx
        cases l with
        | nil => simp at hx
        | cons b bs =>
          simp only [List.head?_cons, Option.some.injEq] at hx
          subst hx
          by_contra hb
          simp only [Bool.not_eq_false] at hb
          exact hadj.1 ⟨ha, hb⟩
      unfold collapseAux
      rw [if_pos ha, if_neg (by decide : ¬((false : Bool) = true)),
        collapseAux_indep l hhd, hrec, ha2]
    · unfold collapseAux
      rw [if_neg ha, hrec]

theorem mem_dropWhileWs (l : List Char) (c : Char) (hc : c ∈ l.dropWhile isPyWs) :
    c ∈ l := by
  induction l with
  | nil => simp at hc
  | cons a l ih =>
    rw [List.dropWhile_cons] at hc
    split at hc
    · exact List.mem_cons_of_mem a (ih hc)
    · exact hc

theorem mem_dropTrailingWs (l : List Char) (c : Char) (hc : c ∈ dropTrailingWs l) :
    c ∈ l := by
  induction l with
  | nil => simp [dropTrailingWs] at hc
  | cons a l ih =>
    unfold dropTrailingWs at hc
    split at hc
    · simp at hc
    · rcases List.mem_cons.mp hc with rfl | h
      · exact List.mem_cons_self _ _
      · exact List.mem_cons_of_mem a (ih h)

theorem dropTrailingWs_isPre (l : List Char) : ∃ t, l = dropTrailingWs l ++ t := by
  induction l with
  | nil => exact ⟨[], rfl⟩
  | cons a l ih =>
    obtain ⟨t, ht⟩ := ih
    unfold dropTrailingWs
    split
    · exact ⟨a :: l, rfl⟩
    · exact ⟨t, by rw [List.cons_append, ← ht]⟩

theorem noAdjWs_tail (a : Char) (l : List Char) (h : noAdjWs (a :: l)) : noAdjWs l := by
  cases l with
  | nil => trivial
  | cons b bs => exact h.2

theorem noAdjWs_append_left (x y : List Char) (h : noAdjWs (x ++ y)) : noAdjWs x := by
  induction x with
  | nil => trivial
  | cons a as ih =>
    cases as with
    | nil => trivial
    | cons b bs => exact ⟨h.1, ih h.2⟩

theorem noAdjWs_dropWhile (l : List Char) (h : noAdjWs l) :
    noAdjWs (l.dropWhile isPyWs) := by
  induction l with
  | nil => exact h
  | cons a l ih =>
    rw [List.dropWhile_cons]
    split
    · exact ih (noAdjWs_tail a l h)
    · exact h

theorem noAdjWs_dropTrailing (l : List Char) (h : noAdjWs l) :
    noAdjWs (dropTrailingWs l) := by
  obtain ⟨t, ht⟩ := dropTrailingWs_isPre l
  exact noAdjWs_append_left _ t (ht ▸ h)

theorem noLeadWs_dropWhile (l : List Char) : noLeadWs (l.dropWhile isPyWs) := by
  induction l with
  | nil => trivial
  | cons a l ih =>
    rw [List.dropWhile_cons]
    split
    · exact ih
    next ha => simpa using ha

theorem noLeadWs_dropTrailing (l : List Char) (h : noLeadWs l) :
    noLeadWs (dropTrailingWs l) := by
  cases l with
  | nil => trivial
  | cons a l =>
    unfold dropTrailingWs
    split
    · trivial
    · exact h

theorem noTrailWs_dropTrailing (l : List Char) : noTrailWs (dropTrailingWs l) := by
  induction l with
  | nil => trivial
  | cons a l ih =>
    unfold dropTrailingWs
    split
    · trivial
    next hcond =>
      by_cases hnil : dropTrailingWs l = []
      · rw [hnil]
        have ha : isPyWs a = false := by
          by_contra hws
          simp only [Bool.not_eq_false] at hws
          exact hcond (by simp [hnil, hws])
        exact ha
      · obtain ⟨b, bs, hbs⟩ := List.exists_cons_of_ne_nil hnil
        have hb : noTrailWs (b :: bs) := hbs ▸ ih
        rw [hbs]
        exact hb

theorem noTrailWs_fix (l : List Char) (h : noTrailWs l) : dropTrailingWs l = l := by
  induction l with
  | nil => rfl
  | cons a l ih =>
    cases l with
    | nil =>
      have ha : isPyWs a = false := h
      simp [dropTrailingWs, ha]
    | cons b bs =>
      have hl : dropTrailingWs (b :: bs) = b :: bs := ih h
      rw [show dropTrailingWs (a :: b :: bs) =
        (if (dropTrailingWs (b :: bs)).isEmpty && isPyWs a then []
         else a :: dropTrailingWs (b :: bs)) from rfl]
      rw [hl]
      simp

theorem noLeadWs_fix (l : List Char) (h : noLeadWs l) : l.dropWhile isPyWs = l := by
  cases l with
  | nil => rfl
  | cons a l =>
    have ha : isPyWs a = false := h
    rw [List.dropWhile_cons, if_neg (by simp [ha])]

theorem normalize_chars_stable (s : List Char) :
    ∀ c ∈ normalize s, decompNFKD c = [c] := by
  intro c hc
  simp only [normalize, pyStrip, dropLeadingWs, collapseWS] at hc
  have hc1 : c ∈ collapseAux false (replaceSp (nfkd s)) :=
    mem_dropWhileWs _ c (mem_dropTrailingWs _ c hc)
  rcases mem_collapseAux _ false c hc1 with rfl | hc2
  · decide
  · rcases mem_replaceSp _ c hc2 with rfl | hc3
    · decide
    · simp only [nfkd] at hc3
      obtain ⟨a, _, hca⟩ := List.mem_flatMap.mp hc3
      exact decompNFKD_output_stable a c hca

theorem normalize_no_special (s : List Char) :
    ∀ c ∈ normalize s, isSpecialSpace c = false := by
  intro c hc
  simp only [normalize, pyStrip, dropLeadingWs, collapseWS] at hc
  have hc1 : c ∈ collapseAux false (replaceSp (nfkd s)) :=
    mem_dropWhileWs _ c (mem_dropTrailingWs _ c hc)
  rcases mem_collapseAux _ false c hc1 with rfl | hc2
  · decide
  · exact replaceSp_no_special _ c hc2

theorem normalize_ws_space (s : List Char) :
    ∀ c ∈ normalize s, isPyWs c = true → c = ' ' := by
  intro c hc
  simp only [normalize, pyStrip, dropLeadingWs, collapseWS] at hc
  exact collapseAux_ws_space _ false c
    (mem_dropWhileWs _ c (mem_dropTrailingWs _ c hc))

theorem normalize_noAdj (s : List Char) : noAdjWs (normalize s) :=
  noAdjWs_dropTrailing _ (noAdjWs_dropWhile _ (collapseAux_noAdj _ false))

theorem normalize_noLead (s : List Char) : noLeadWs (normalize s) :=
  noLeadWs_dropTrailing _ (noLeadWs_dropWhile _)

theorem normalize_noTrail (s : List Char) : noTrailWs (normalize s) :=
  noTrailWs_dropTrailing _

/-- C1, counterexample: on empty input the extractor does NOT return an
empty record sequence — the terminal fallback fires and produces one
record (name `Full Document Analysis - doc.pdf`, empty description);
a whitespace-only input likewise yields a non-empty result. -/
theorem claim1_counterexample :
    parse_pdf_to_dataframe [] "doc.pdf".toList =
      [⟨"Full Document Analysis - doc.pdf".toList, some []⟩] ∧
    parse_pdf_to_dataframe " \n ".toList "doc.pdf".toList ≠ [] := by
  constructor
  · decide
  · decide

/-- C1, amended: for every input text that is empty or whitespace-only
(its line split yields no non-empty lines), the terminal fallback DOES
fire: the extractor returns exactly one record whose name is
`Full Document Analysis - ` followed by the file name and whose
description is the first 2000 characters of the raw text. -/
theorem claim1_amended_fallback (text fname : List Char)
    (h : splitLines text = []) :
    parse_pdf_to_dataframe text fname =
      [⟨"Full Document Analysis - ".toList ++ fname, some (text.take 2000)⟩] := by
  unfold parse_pdf_to_dataframe
  rw [h]
  rfl

/-- Witness for the amended C1 at a concrete whitespace-only input. -/
theorem claim1_witness :
    splitLines " \n ".toList = [] ∧
    parse_pdf_to_dataframe " \n ".toList "a.pdf".toList =
      [⟨"Full Document Analysis - ".toList ++ "a.pdf".toList,
        some (" \n ".toList.take 2000)⟩] :=
  ⟨by decide, claim1_amended_fallback " \n ".toList "a.pdf".toList (by decide)⟩

/-- C2: whenever Strategy 1 produces at least one record from the line
sequence, the extractor's result is exactly Strategy 1's records —
Strategy 2 and Strategy 3 are never attempted and contribute no
records, and the fallback does not fire. -/
theorem claim2_strategy_precedence (lines : List (List Char))
    (text fname : List Char) (h : strat1 lines ≠ []) :
    parseLines lines text fname = strat1 lines := by
  have h1 : (strat1 lines).isEmpty = false := by
    cases hl : strat1 lines with
    | nil => exact absurd hl h
    | cons a l => rfl
  simp only [parseLines, h1, Bool.false_eq_true, if_false]

/-- Witness for C2: a one-line labeled document on which Strategy 1
succeeds, so the extractor returns its single record unchanged. -/
theorem claim2_witness :
    strat1 ["Project: A".toList] ≠ [] ∧
    parseLines ["Project: A".toList] "Project: A".toList "f.pdf".toList =
      strat1 ["Project: A".toList] :=
  ⟨by decide, claim2_strategy_precedence ["Project: A".toList]
    "Project: A".toList "f.pdf".toList (by decide)⟩

/-- C3: keyword matching is whole-word and case-insensitive — the
keyword `cattle` matches `Cattle farming` and `cattle.` but matches
neither `cattleship` nor `wildcattle`.  The embedded matcher
`searchWord` is a literal transcription of the source's compiled
pattern (a word boundary on each side of the escaped keyword, matched
case-insensitively against the normalized text), so the boundary-flanked
occurrence semantics holds by definition and the four discriminating
examples are checked by evaluation. -/
theorem claim3_word_boundaries :
    find_keywords_in_text ["cattle".toList] "Cattle farming".toList =
      ["cattle".toList] ∧
    find_keywords_in_text ["cattle".toList] "cattle.".toList = ["cattle".toList] ∧
    find_keywords_in_text ["cattle".toList] "cattleship".toList = [] ∧
    find_keywords_in_text ["cattle".toList] "wildcattle".toList = [] := by
  refine ⟨by decide, by decide, by decide, by decide⟩

/-- C4: the text normalization of the source is idempotent — applying
`normalize` twice yields the same result as applying it once, for every
character list (in particular for strings mixing the Unicode spaces
U+00A0, U+2007, U+2009, U+200A, whitespace runs, and composed accented
characters from the embedded NFKD fragment). -/
theorem claim4_normalize_idempotent (s : List Char) :
    normalize (normalize s) = normalize s := by
  conv_lhs => rw [normalize]
  rw [nfkd_fix (normalize s) (normalize_chars_stable s),
    replaceSp_fix (normalize s) (normalize_no_special s)]
  rw [show collapseWS (normalize s) = normalize s from
    collapseAux_false_eq_self (normalize s) (normalize_ws_space s) (normalize_noAdj s)]
  show dropTrailingWs ((normalize s).dropWhile isPyWs) = normalize s
  rw [noLeadWs_fix (normalize s) (normalize_noLead s),
    noTrailWs_fix (normalize s) (normalize_noTrail s)]

/-- C5: the keyword finder is deterministic, returns each matched
keyword at most once (no duplicates), reports keywords as a sublist of
the fixed keyword sequence (hence in keyword-sequence order), and on a
concrete two-keyword example returns the sequence order, not the
alphabetical order. -/
theorem claim5_order_dedup_determinism :
    (∀ kws text, (find_keywords_in_text kws text).Nodup ∧
      List.Sublist (find_keywords_in_text kws text) kws) ∧
    (∀ kws t1 t2, t1 = t2 →
      find_keywords_in_text kws t1 = find_keywords_in_text kws t2) ∧
    find_keywords_in_text ["sheep".toList, "cattle".toList]
      "cattle and sheep".toList = ["sheep".toList, "cattle".toList] ∧
    ["sheep".toList, "cattle".toList] ≠ ["cattle".toList, "sheep".toList] := by
  refine ⟨fun kws text => ⟨find_keywords_nodup kws text, find_keywords_sublist kws text⟩,
    fun kws t1 t2 h => by rw [h], by decide, by decide⟩

/-- Witness for C5's determinism component at a concrete text. -/
theorem claim5_witness :
    find_keywords_in_text ["cattle".toList] "cattle".toList =
      find_keywords_in_text ["cattle".toList] "cattle".toList :=
  claim5_order_dedup_determinism.2.1 ["cattle".toList] "cattle".toList
    "cattle".toList rfl

/-- C6, counterexample: Strategy 1 does NOT require the label to begin
the line — the line `My project: Cats` begins with no name or
description label, yet it starts a new record (named `Cats`). -/
theorem claim6_counterexample :
    strat1 ["My project: Cats".toList] = [⟨"Cats".toList, none⟩] ∧
    ((namePatterns ++ descPatterns).all
      fun p => !leadsWith p (lowerL "My project: Cats".toList)) = true := by
  constructor
  · decide
  · decide

/-- C6, amended: Strategy 1 recognizes a name label or a description
label by case-insensitive substring containment anywhere in the line,
not only as a line prefix: a line triggers the name branch exactly when
its lowercased text contains one of the name labels, and the
description branch exactly when it contains one of the description
labels. -/
theorem claim6_amended_containment (line : List Char) :
    (isNameLine line = true ↔ ∃ p, p ∈ namePatterns ∧ occursIn p (lowerL line)) ∧
    (isDescLine line = true ↔ ∃ p, p ∈ descPatterns ∧ occursIn p (lowerL line)) := by
  constructor <;>
    simp only [isNameLine, isDescLine, List.any_eq_true, containsSub_iff]

/-- C7, counterexample: the look-ahead does NOT stop at a
`Project Name:` line — in this document the first record's description
greedily absorbs the line `Project Name: B`, which the claim's stop-label
set would have excluded. -/
theorem claim7_counterexample :
    strat1 ["Project: A".toList, "Description: d".toList,
      "Project Name: B".toList] =
      [⟨"A".toList, some "d Project Name: B".toList⟩, ⟨"B".toList, none⟩] := by
  decide

/-- C7, amended: once a description label is found, every subsequent
line is appended (space-separated) to the description until the first
line containing a stop label, or until the input ends — where the stop
labels are exactly `project:`, `title:`, `budget:`, `cost:`, `date:`
(case-insensitive substrings); `project name:` and the localized name
label are NOT stop labels, as witnessed by a `Project Name:` line not
stopping the capture. -/
theorem claim7_amended_stop_labels (desc : List Char) (rest : List (List Char))
    (h : ∀ l ∈ rest, pyStrip l = l ∧ l ≠ []) :
    lookaheadDesc desc rest =
      desc ++ (rest.takeWhile fun l => !isStopLine l).flatMap (fun l => ' ' :: l) ∧
    stopPatterns = ["project:".toList, "title:".toList, "budget:".toList,
      "cost:".toList, "date:".toList] ∧
    isStopLine "Project Name: B".toList = false :=
  ⟨lookaheadDesc_eq rest desc h, rfl, by decide⟩

/-- Witness for the amended C7 at a concrete capture: one ordinary line
is absorbed and the capture stops at the `Budget:` line. -/
theorem claim7_witness :
    (∀ l ∈ ["more text".toList, "Budget: 5".toList], pyStrip l = l ∧ l ≠ []) ∧
    lookaheadDesc "d".toList ["more text".toList, "Budget: 5".toList] =
      "d".toList ++ ((["more text".toList, "Budget: 5".toList].takeWhile
        fun l => !isStopLine l).flatMap (fun l => ' ' :: l)) :=
  ⟨by decide, (claim7_amended_stop_labels "d".toList
    ["more text".toList, "Budget: 5".toList] (by decide)).1⟩

/-- C8: Strategy 3's thresholds are strict — the record count never
exceeds 10; a document whose middle line has exactly 50 characters
keeps that line out of every chunk (here splitting the text into two
short chunks that are both dropped); a single line of exactly 100
characters forms a chunk of joined length exactly 100 and is not kept;
a single line of 101 characters is kept; and with eleven kept chunks
only the first 10 become records. -/
theorem claim8_strict_thresholds :
    (∀ lines, (strat3 lines).length ≤ 10) ∧
    strat3 [List.replicate 60 'a', List.replicate 50 'b', List.replicate 60 'c'] = [] ∧
    strat3 [List.replicate 100 'a'] = [] ∧
    (strat3 [List.replicate 101 'a']).length = 1 ∧
    (strat3 ((List.replicate 10 [List.replicate 101 'a', ['x']]).flatten ++
      [List.replicate 101 'a'])).length = 10 := by
  refine ⟨?_, by decide, by decide, by decide, by decide⟩
  intro lines
  simp only [strat3, List.length_map, List.enum_length, List.length_take]
  exact Nat.min_le_left 10 _

set_option maxRecDepth 4000 in
/-- C9: end-to-end — on the two labeled lines the extractor produces
exactly one record named `Dairy Farm` with description
`Improving cattle health.`, and with the keyword sequence
`dairy, cattle` the matcher finds exactly `dairy` in the name and
exactly `cattle` in the description. -/
theorem claim9_end_to_end :
    parse_pdf_to_dataframe
      "Project: Dairy Farm\nDescription: Improving cattle health.".toList
      "doc.pdf".toList =
      [⟨"Dairy Farm".toList, some "Improving cattle health.".toList⟩] ∧
    find_keywords_in_text ["dairy".toList, "cattle".toList]
      "Dairy Farm".toList = ["dairy".toList] ∧
    find_keywords_in_text ["dairy".toList, "cattle".toList]
      "Improving cattle health.".toList = ["cattle".toList] := by
  refine ⟨by decide, by decide, by decide⟩

/-- C10: in Strategy 1 a description-label line that occurs before any
name-label line has started a record is silently discarded — the
extraction result is the same as if the line were absent, so no record
is created for it and its text appears in no record's description. -/
theorem claim10_desc_before_name_discarded (pre : List (List Char))
    (line : List Char) (rest : List (List Char))
    (hpre : ∀ l ∈ pre, isNameLine l = false)
    (hname : isNameLine line = false) (hdesc : isDescLine line = true) :
    strat1 (pre ++ line :: rest) = strat1 (pre ++ rest) := by
  unfold strat1
  rw [strat1Loop_skipNonName pre hpre (line :: rest) [],
    strat1Loop_skipNonName pre hpre rest []]
  show strat1Loop (line :: rest) none [] = strat1Loop rest none []
  simp only [strat1Loop, hname, Bool.false_eq_true, if_false, hdesc, if_true]

/-- Witness for C10: a leading `Description:` line is dropped and the
following labeled line alone determines the result. -/
theorem claim10_witness :
    isNameLine "Description: hello".toList = false ∧
    isDescLine "Description: hello".toList = true ∧
    strat1 ([] ++ "Description: hello".toList :: ["Project: A".toList]) =
      strat1 ([] ++ ["Project: A".toList]) :=
  ⟨by decide, by decide,
    claim10_desc_before_name_discarded [] "Description: hello".toList
      ["Project: A".toList] (by simp) (by decide) (by decide)⟩

end IDB
